import Mathlib

/-!
Verification of the pretty-trip scenic-routing core.

The repository drives a managed geospatial engine through two declarative
calls in start-here.ipynb: db.create_graph (builds the weighted road graph
from pretty_trip.osm_small) and db.solve_graph (snaps two WKT points onto
graph nodes and solves SHORTEST_PATH).  The weight expression, the graph
options (directed_graph, merge_tolerance, recreate, ...) and the solve
options (max_solution_radius, turn penalties, ...) are in the notebook;
the engine internals (node merging, the shortest-path solver, the light
coverage attribution) are not part of the repository and are modelled from
the specification where a claim needs them.

Geographic distance is kept abstract: every geometric definition takes the
point-to-point distance function `d` as a parameter, so theorems hold for
any metric (great-circle, planar, ...), and witnesses instantiate `d`
with an executable rational metric.
-/

namespace PrettyTrip

/-- A geographic coordinate (longitude, latitude), as exact rationals. -/
abbrev Point : Type := ℚ × ℚ

/-- A distance function on coordinates; the engine measures geodesic
meters, which we keep abstract as a parameter. -/
abbrev Metric : Type := Point → Point → ℚ

/-- Taxicab distance on coordinates: an executable metric used to
instantiate witnesses (theorems are stated for an arbitrary metric). -/
def dist1 (p q : Point) : ℚ := |p.1 - q.1| + |p.2 - q.2|

/-- A row of the road table the graph is built from
(pretty_trip.osm_small): the dc_osm columns created in the notebook plus
the per-segment light coverage referenced by the weight expression. -/
structure OsmRow where
  WKT : List Point
  osm_id : ℤ
  code : ℤ
  fclass : String
  name : String
  ref : String
  oneway : String
  maxspeed : ℤ
  layer : ℤ
  bridge : String
  tunnel : String
  light : ℚ
deriving DecidableEq, Repr, Inhabited

/-- ST_NPoints: the number of vertices of a linestring. -/
def ST_NPoints (wkt : List Point) : ℕ := wkt.length

/-- ST_Length: the length of a linestring, the sum of the distances
between consecutive vertices, measured by the metric `d`. -/
def ST_Length (d : Metric) : List Point → ℚ
  | [] => 0
  | [_] => 0
  | p :: q :: rest => d p q + ST_Length d (q :: rest)

/-- WEIGHTS_VALUESPECIFIED, the edge-weight expression of the
db.create_graph call in the notebook:
ST_Length(WKT,1)/(ST_NPoints(WKT)-1) + ((1 - light)*20). -/
def WEIGHTS_VALUESPECIFIED (d : Metric) (wkt : List Point) (light : ℚ) : ℚ :=
  ST_Length d wkt / ((ST_NPoints wkt : ℚ) - 1) + (1 - light) * 20

/-- The weight formula as the specification writes it, with the
denominator clamped: length / max(point_count - 1, 1) +
(1 - coverage) * penalty_scale. -/
def specWeight (len : ℚ) (npoints : ℕ) (coverage penalty_scale : ℚ) : ℚ :=
  len / max ((npoints : ℚ) - 1) 1 + (1 - coverage) * penalty_scale

theorem ST_Length_nonneg (d : Metric) (hd : ∀ p q, 0 ≤ d p q) :
    ∀ wkt, 0 ≤ ST_Length d wkt := by
  intro wkt
  induction wkt with
  | nil => simp [ST_Length]
  | cons p rest ih =>
    cases rest with
    | nil => simp [ST_Length]
    | cons q tail =>
      simp only [ST_Length]
      have h1 := hd p q
      have h2 : (0:ℚ) ≤ ST_Length d (q :: tail) := ih
      linarith

/-- C1: for every segment with at least 2 polyline vertices and a coverage
value, the edge weight assigned by the graph builder equals
length / max(point_count - 1, 1) + (1 - coverage) * penalty_scale with
penalty_scale = 20; for coverage = 1 it is the pure length-density term,
and for coverage = 0 it is the length-density term plus the full 20. -/
theorem weight_formula_matches_spec (d : Metric) (wkt : List Point) (light : ℚ)
    (h2 : 2 ≤ ST_NPoints wkt) :
    WEIGHTS_VALUESPECIFIED d wkt light = specWeight (ST_Length d wkt) (ST_NPoints wkt) light 20
    ∧ (light = 1 →
        WEIGHTS_VALUESPECIFIED d wkt light = ST_Length d wkt / ((ST_NPoints wkt : ℚ) - 1))
    ∧ (light = 0 →
        WEIGHTS_VALUESPECIFIED d wkt light =
          ST_Length d wkt / ((ST_NPoints wkt : ℚ) - 1) + 20) := by
  have hden : (1:ℚ) ≤ (ST_NPoints wkt : ℚ) - 1 := by
    have : (2:ℚ) ≤ (ST_NPoints wkt : ℚ) := by exact_mod_cast h2
    linarith
  refine ⟨?_, ?_, ?_⟩
  · unfold WEIGHTS_VALUESPECIFIED specWeight
    rw [max_eq_left hden]
  · intro h1; unfold WEIGHTS_VALUESPECIFIED; rw [h1]; ring
  · intro h0; unfold WEIGHTS_VALUESPECIFIED; rw [h0]; ring

/-- Witness for C1: a concrete two-vertex segment, evaluated for coverage
values 1/2, 1 and 0. -/
theorem weight_formula_matches_spec_witness :
    2 ≤ ST_NPoints [((0:ℚ), (0:ℚ)), (3, 4)]
    ∧ (WEIGHTS_VALUESPECIFIED dist1 [((0:ℚ), (0:ℚ)), (3, 4)] (1/2) =
        specWeight (ST_Length dist1 [((0:ℚ), (0:ℚ)), (3, 4)]) 2 (1/2) 20
      ∧ ((1:ℚ)/2 = 1 →
          WEIGHTS_VALUESPECIFIED dist1 [((0:ℚ), (0:ℚ)), (3, 4)] (1/2) =
            ST_Length dist1 [((0:ℚ), (0:ℚ)), (3, 4)] / ((2 : ℚ) - 1))
      ∧ ((1:ℚ)/2 = 0 →
          WEIGHTS_VALUESPECIFIED dist1 [((0:ℚ), (0:ℚ)), (3, 4)] (1/2) =
            ST_Length dist1 [((0:ℚ), (0:ℚ)), (3, 4)] / ((2 : ℚ) - 1) + 20)) :=
  ⟨by decide, weight_formula_matches_spec dist1 [((0:ℚ), (0:ℚ)), (3, 4)] (1/2) (by decide)⟩

/-- C6 counterexample: the weight expression applies no epsilon clamp. A
degenerate zero-length two-vertex segment with full coverage gets weight
exactly 0, so no positive epsilon can bound every degenerate weight from
below. -/
theorem no_epsilon_floor_counterexample :
    WEIGHTS_VALUESPECIFIED dist1 [((0:ℚ), (0:ℚ)), (0, 0)] 1 = 0
    ∧ ¬ ∃ ε : ℚ, 0 < ε ∧ ε ≤ WEIGHTS_VALUESPECIFIED dist1 [((0:ℚ), (0:ℚ)), (0, 0)] 1 := by
  have h0 : WEIGHTS_VALUESPECIFIED dist1 [((0:ℚ), (0:ℚ)), (0, 0)] 1 = 0 := by
    norm_num [WEIGHTS_VALUESPECIFIED, ST_Length, ST_NPoints, dist1]
  constructor
  · exact h0
  · rintro ⟨ε, hpos, hle⟩
    rw [h0] at hle
    linarith

/-- C6 amended: for every segment with at least 2 vertices, a nonnegative
metric and coverage at most 1, the weight expression is a total function
and never negative (in particular no division by zero occurs, the
denominator being at least 1); but the code applies no positive epsilon
floor, so weight 0 is attained. -/
theorem weight_total_nonneg (d : Metric) (hd : ∀ p q, 0 ≤ d p q)
    (wkt : List Point) (light : ℚ) (h2 : 2 ≤ ST_NPoints wkt) (hl : light ≤ 1) :
    0 ≤ WEIGHTS_VALUESPECIFIED d wkt light := by
  have hden : (1:ℚ) ≤ (ST_NPoints wkt : ℚ) - 1 := by
    have : (2:ℚ) ≤ (ST_NPoints wkt : ℚ) := by exact_mod_cast h2
    linarith
  have hlen : 0 ≤ ST_Length d wkt := ST_Length_nonneg d hd wkt
  have hq : 0 ≤ ST_Length d wkt / ((ST_NPoints wkt : ℚ) - 1) :=
    div_nonneg hlen (by linarith)
  have hp : 0 ≤ (1 - light) * 20 := by nlinarith
  unfold WEIGHTS_VALUESPECIFIED
  linarith

/-- Witness for the amended C6: the degenerate zero-length segment with
full coverage has nonnegative weight. -/
theorem weight_total_nonneg_witness :
    (∀ p q, 0 ≤ dist1 p q) ∧ 2 ≤ ST_NPoints [((0:ℚ), (0:ℚ)), (0, 0)] ∧ (1:ℚ) ≤ 1
    ∧ 0 ≤ WEIGHTS_VALUESPECIFIED dist1 [((0:ℚ), (0:ℚ)), (0, 0)] 1 := by
  have hd : ∀ p q, 0 ≤ dist1 p q := by
    intro p q
    have h1 : (0:ℚ) ≤ |p.1 - q.1| := abs_nonneg _
    have h2 : (0:ℚ) ≤ |p.2 - q.2| := abs_nonneg _
    unfold dist1
    linarith
  exact ⟨hd, by decide, le_refl 1,
    weight_total_nonneg dist1 hd [((0:ℚ), (0:ℚ)), (0, 0)] 1 (by decide) (le_refl 1)⟩

/-- Modelled from the spec: membership of a point in the circular light
buffer of radius r around a sample point c (the notebook buffers street
lights by 9 meters; the buffering itself runs inside the engine and is not
in the repository). -/
def inBuffer (d : Metric) (r : ℚ) (c p : Point) : Bool := d c p ≤ r

/-- Modelled from the spec: a point is covered when it lies in the union
of all light buffers. -/
def coveredByAny (d : Metric) (r : ℚ) (lights : List Point) (p : Point) : Bool :=
  lights.any (fun c => inBuffer d r c p)

/-- Modelled from the spec: areal-overlap attribution. The coverage of a
segment (the osm_small.light column, computed outside the repository) is
the fraction of its polyline points lying inside the union of the light
buffers; an empty polyline gets the neutral default 0. -/
def coverage (d : Metric) (r : ℚ) (lights : List Point) (poly : List Point) : ℚ :=
  if poly.length = 0 then 0
  else ((poly.countP (coveredByAny d r lights)) : ℚ) / (poly.length : ℚ)

theorem coverage_congr (d : Metric) (r : ℚ) (ls1 ls2 : List Point) (poly : List Point)
    (h : ∀ p ∈ poly, coveredByAny d r ls1 p = coveredByAny d r ls2 p) :
    coverage d r ls1 poly = coverage d r ls2 poly := by
  unfold coverage
  rw [List.countP_congr (fun p hp => by rw [h p hp])]

/-- C9: coverage is a total scalar in [0, 1]: a segment reached by no
buffer gets coverage 0, a segment lying entirely inside one buffer gets
coverage 1, and overlapping buffers combine by union rather than sum, so
re-adding a buffer already present never changes (in particular never
double-counts) the coverage. -/
theorem coverage_total_unit_interval (d : Metric) (r : ℚ) (lights : List Point)
    (poly : List Point) :
    (0 ≤ coverage d r lights poly ∧ coverage d r lights poly ≤ 1)
    ∧ ((∀ p ∈ poly, coveredByAny d r lights p = false) → coverage d r lights poly = 0)
    ∧ (poly.length ≠ 0 → (∃ c ∈ lights, ∀ p ∈ poly, inBuffer d r c p = true) →
        coverage d r lights poly = 1)
    ∧ (∀ c ∈ lights, coverage d r (c :: lights) poly = coverage d r lights poly) := by
  refine ⟨⟨?_, ?_⟩, ?_, ?_, ?_⟩
  · unfold coverage
    split
    · exact le_refl 0
    · positivity
  · unfold coverage
    split
    · exact zero_le_one
    · rename_i hne
      have hlen : (0:ℚ) < (poly.length : ℚ) := by
        exact_mod_cast Nat.pos_of_ne_zero hne
      rw [div_le_one hlen]
      exact_mod_cast List.countP_le_length _
  · intro hnone
    unfold coverage
    split
    · rfl
    · rw [List.countP_eq_zero.mpr (fun p hp => by simp [hnone p hp])]
      simp
  · rintro hne ⟨c, hc, hall⟩
    have hcnt : poly.countP (coveredByAny d r lights) = poly.length := by
      rw [List.countP_eq_length]
      intro p hp
      have : coveredByAny d r lights p = true :=
        List.any_eq_true.mpr ⟨c, hc, hall p hp⟩
      simpa using this
    unfold coverage
    rw [if_neg hne, hcnt]
    exact div_self (by exact_mod_cast hne)
  · intro c hc
    apply coverage_congr
    intro p _
    unfold coveredByAny
    simp only [List.any_cons]
    cases hcb : inBuffer d r c p with
    | false => simp
    | true =>
      have hl : lights.any (fun x => inBuffer d r x p) = true :=
        List.any_eq_true.mpr ⟨c, hc, hcb⟩
      simp [hl]

/-- Witness for C9: three sample points on a line with buffer radius 1,
and a two-vertex segment fully inside the first buffer: coverage 1; the
same theorem also gives that duplicating the first buffer changes
nothing. -/
theorem coverage_total_unit_interval_witness :
    (0 ≤ coverage dist1 1 [((0:ℚ), (0:ℚ)), (5, 5)] [((0:ℚ), (0:ℚ)), (1, 0)]
      ∧ coverage dist1 1 [((0:ℚ), (0:ℚ)), (5, 5)] [((0:ℚ), (0:ℚ)), (1, 0)] ≤ 1)
    ∧ ((∀ p ∈ [((0:ℚ), (0:ℚ)), (1, 0)],
          coveredByAny dist1 1 [((0:ℚ), (0:ℚ)), (5, 5)] p = false) →
        coverage dist1 1 [((0:ℚ), (0:ℚ)), (5, 5)] [((0:ℚ), (0:ℚ)), (1, 0)] = 0)
    ∧ (List.length [((0:ℚ), (0:ℚ)), (1, 0)] ≠ 0 →
        (∃ c ∈ [((0:ℚ), (0:ℚ)), (5, 5)], ∀ p ∈ [((0:ℚ), (0:ℚ)), (1, 0)],
          inBuffer dist1 1 c p = true) →
        coverage dist1 1 [((0:ℚ), (0:ℚ)), (5, 5)] [((0:ℚ), (0:ℚ)), (1, 0)] = 1)
    ∧ (∀ c ∈ [((0:ℚ), (0:ℚ)), (5, 5)],
        coverage dist1 1 (c :: [((0:ℚ), (0:ℚ)), (5, 5)]) [((0:ℚ), (0:ℚ)), (1, 0)] =
          coverage dist1 1 [((0:ℚ), (0:ℚ)), (5, 5)] [((0:ℚ), (0:ℚ)), (1, 0)]) :=
  coverage_total_unit_interval dist1 1 [((0:ℚ), (0:ℚ)), (5, 5)] [((0:ℚ), (0:ℚ)), (1, 0)]

/-- Modelled from the spec: the union of two label classes — every index
labelled like j is relabelled like i. This is the effect of a union-find
union on the fully-resolved representative map (the engine's
merge_tolerance node merging is not in the repository). -/
def unionLabels (labels : List ℕ) (i j : ℕ) : List ℕ :=
  labels.map (fun l => if l = labels.getD j 0 then labels.getD i 0 else l)

/-- Modelled from the spec: process a list of candidate endpoint pairs in
order, unioning the classes of every pair the closeness test accepts. -/
def processPairs (close : ℕ → ℕ → Bool) : List ℕ → List (ℕ × ℕ) → List ℕ
  | labels, [] => labels
  | labels, (i, j) :: rest =>
      processPairs close (if close i j then unionLabels labels i j else labels) rest

/-- All ordered index pairs below n: the candidate endpoint pairs. -/
def allPairs (n : ℕ) : List (ℕ × ℕ) :=
  ((List.range n).map (fun i => (List.range n).map (fun j => (i, j)))).flatten

/-- Modelled from the spec: two endpoint indices merge when the distance
between their points is at most merge_tolerance (the db.create_graph call
sets merge_tolerance to 0.00001). -/
def tolClose (d : Metric) (tol : ℚ) (pts : List Point) (i j : ℕ) : Bool :=
  decide (d (pts.getD i (0, 0)) (pts.getD j (0, 0)) ≤ tol)

/-- The representative map produced by unioning a given pair list. -/
def mergeLabelsWith (close : ℕ → ℕ → Bool) (n : ℕ) (prs : List (ℕ × ℕ)) : List ℕ :=
  processPairs close (List.range n) prs

/-- Same-node test for a given pair processing order. -/
def sameNodeWith (close : ℕ → ℕ → Bool) (n : ℕ) (prs : List (ℕ × ℕ)) (i j : ℕ) : Bool :=
  (mergeLabelsWith close n prs).getD i 0 == (mergeLabelsWith close n prs).getD j 0

/-- Modelled from the spec: two endpoint indices belong to the same graph
node when the union-find merge over all candidate pairs gives them the
same representative. -/
def sameNode (d : Metric) (tol : ℚ) (pts : List Point) (i j : ℕ) : Bool :=
  sameNodeWith (tolClose d tol pts) pts.length (allPairs pts.length) i j

/-- The equivalence closure of a relation on indices: what the merged
node partition must realize. -/
inductive MergedRel (R : ℕ → ℕ → Prop) : ℕ → ℕ → Prop
  | rel {i j : ℕ} : R i j → MergedRel R i j
  | refl (i : ℕ) : MergedRel R i i
  | symm {i j : ℕ} : MergedRel R i j → MergedRel R j i
  | trans {i j k : ℕ} : MergedRel R i j → MergedRel R j k → MergedRel R i k

theorem mem_allPairs (n i j : ℕ) : (i, j) ∈ allPairs n ↔ i < n ∧ j < n := by
  simp [allPairs, List.mem_flatten, List.mem_map, List.mem_range]

theorem unionLabels_length (labels : List ℕ) (i j : ℕ) :
    (unionLabels labels i j).length = labels.length := by
  simp [unionLabels]

theorem processPairs_length (close : ℕ → ℕ → Bool) :
    ∀ prs labels, (processPairs close labels prs).length = labels.length := by
  intro prs
  induction prs with
  | nil => intro labels; rfl
  | cons pr rest ih =>
    intro labels
    obtain ⟨i, j⟩ := pr
    simp only [processPairs]
    rw [ih]
    split <;> simp [unionLabels_length]

theorem getD_unionLabels (labels : List ℕ) (i j a : ℕ) (ha : a < labels.length) :
    (unionLabels labels i j).getD a 0 =
      (if labels.getD a 0 = labels.getD j 0 then labels.getD i 0 else labels.getD a 0) := by
  unfold unionLabels
  rw [List.getD_eq_getElem?_getD, List.getElem?_map,
    List.getElem?_eq_getElem ha]
  simp [List.getD_eq_getElem?_getD, List.getElem?_eq_getElem ha]

theorem unionLabels_eq_of_eq (labels : List ℕ) (i j a b : ℕ)
    (ha : a < labels.length) (hb : b < labels.length)
    (h : labels.getD a 0 = labels.getD b 0) :
    (unionLabels labels i j).getD a 0 = (unionLabels labels i j).getD b 0 := by
  rw [getD_unionLabels labels i j a ha, getD_unionLabels labels i j b hb, h]

theorem unionLabels_self_eq (labels : List ℕ) (i j : ℕ)
    (hi : i < labels.length) (hj : j < labels.length) :
    (unionLabels labels i j).getD i 0 = (unionLabels labels i j).getD j 0 := by
  rw [getD_unionLabels labels i j i hi, getD_unionLabels labels i j j hj]
  by_cases h : labels.getD i 0 = labels.getD j 0 <;> simp [h]

theorem processPairs_eq_of_eq (close : ℕ → ℕ → Bool) :
    ∀ prs labels (a b : ℕ), a < labels.length → b < labels.length →
      labels.getD a 0 = labels.getD b 0 →
      (processPairs close labels prs).getD a 0 = (processPairs close labels prs).getD b 0 := by
  intro prs
  induction prs with
  | nil => intro labels a b _ _ h; exact h
  | cons pr rest ih =>
    intro labels a b ha hb h
    obtain ⟨i, j⟩ := pr
    simp only [processPairs]
    by_cases hc : close i j = true
    · rw [if_pos hc]
      exact ih _ a b (by rw [unionLabels_length]; exact ha)
        (by rw [unionLabels_length]; exact hb)
        (unionLabels_eq_of_eq labels i j a b ha hb h)
    · rw [if_neg hc]
      exact ih labels a b ha hb h

theorem processPairs_pair_merged (close : ℕ → ℕ → Bool) :
    ∀ prs labels (a b : ℕ), a < labels.length → b < labels.length →
      (a, b) ∈ prs → close a b = true →
      (processPairs close labels prs).getD a 0 = (processPairs close labels prs).getD b 0 := by
  intro prs
  induction prs with
  | nil => intro labels a b _ _ hmem; cases hmem
  | cons pr rest ih =>
    intro labels a b ha hb hmem hc
    obtain ⟨i, j⟩ := pr
    rcases List.mem_cons.mp hmem with heq | htail
    · injection heq with h1 h2
      subst h1
      subst h2
      simp only [processPairs, if_pos hc]
      exact processPairs_eq_of_eq close rest _ a b
        (by rw [unionLabels_length]; exact ha)
        (by rw [unionLabels_length]; exact hb)
        (unionLabels_self_eq labels a b ha hb)
    · simp only [processPairs]
      split
      · exact ih _ a b (by rw [unionLabels_length]; exact ha)
          (by rw [unionLabels_length]; exact hb) htail hc
      · exact ih labels a b ha hb htail hc

/-- The pair relation a processing run realizes: a candidate pair, within
bounds, accepted by the closeness test. -/
def pairRel (close : ℕ → ℕ → Bool) (n : ℕ) (prs : List (ℕ × ℕ)) (x y : ℕ) : Prop :=
  (x, y) ∈ prs ∧ close x y = true ∧ x < n ∧ y < n

theorem bool_eq_of_iff {a b : Bool} (h : a = true ↔ b = true) : a = b := by
  cases a <;> cases b <;> simp_all

theorem mergedRel_mono {R1 R2 : ℕ → ℕ → Prop} (h : ∀ x y, R1 x y → R2 x y) :
    ∀ {a b : ℕ}, MergedRel R1 a b → MergedRel R2 a b := by
  intro a b hm
  induction hm with
  | rel hr => exact MergedRel.rel (h _ _ hr)
  | refl i => exact MergedRel.refl i
  | symm _ ih => exact MergedRel.symm ih
  | trans _ _ ih1 ih2 => exact MergedRel.trans ih1 ih2

theorem getD_range (n x : ℕ) (hx : x < n) : (List.range n).getD x 0 = x := by
  rw [List.getD_eq_getElem?_getD, List.getElem?_range hx]
  rfl

theorem processPairs_eq_implies_rel (close : ℕ → ℕ → Bool) (R : ℕ → ℕ → Prop) (n : ℕ) :
    ∀ prs labels, labels.length = n →
      (∀ i j, (i, j) ∈ prs → i < n ∧ j < n) →
      (∀ i j, (i, j) ∈ prs → close i j = true → R i j) →
      (∀ x y, x < n → y < n → labels.getD x 0 = labels.getD y 0 → MergedRel R x y) →
      ∀ a b, a < n → b < n →
        (processPairs close labels prs).getD a 0 = (processPairs close labels prs).getD b 0 →
        MergedRel R a b := by
  intro prs
  induction prs with
  | nil => intro labels _ _ _ inv a b ha hb h; exact inv a b ha hb h
  | cons pr rest ih =>
    intro labels hlen hbnd hrel inv a b ha hb h
    obtain ⟨i, j⟩ := pr
    obtain ⟨hi, hj⟩ := hbnd i j (List.mem_cons_self _ _)
    simp only [processPairs] at h
    by_cases hc : close i j = true
    · rw [if_pos hc] at h
      refine ih (unionLabels labels i j) (by rw [unionLabels_length]; exact hlen)
        (fun x y hm => hbnd x y (List.mem_cons_of_mem _ hm))
        (fun x y hm => hrel x y (List.mem_cons_of_mem _ hm))
        ?_ a b ha hb h
      intro x y hx hy hxy
      have hRij : R i j := hrel i j (List.mem_cons_self _ _) hc
      rw [getD_unionLabels labels i j x (hlen ▸ hx),
        getD_unionLabels labels i j y (hlen ▸ hy)] at hxy
      by_cases hxj : labels.getD x 0 = labels.getD j 0
      · by_cases hyj : labels.getD y 0 = labels.getD j 0
        · exact inv x y hx hy (hxj.trans hyj.symm)
        · rw [if_pos hxj, if_neg hyj] at hxy
          have hxJ : MergedRel R x j := inv x j hx hj hxj
          have hyI : MergedRel R y i := inv y i hy hi hxy.symm
          exact MergedRel.trans (MergedRel.trans hxJ (MergedRel.symm (MergedRel.rel hRij)))
            (MergedRel.symm hyI)
      · by_cases hyj : labels.getD y 0 = labels.getD j 0
        · rw [if_neg hxj, if_pos hyj] at hxy
          have hyJ : MergedRel R y j := inv y j hy hj hyj
          have hxI : MergedRel R x i := inv x i hx hi hxy
          exact MergedRel.trans (MergedRel.trans hxI (MergedRel.rel hRij))
            (MergedRel.symm hyJ)
        · rw [if_neg hxj, if_neg hyj] at hxy
          exact inv x y hx hy hxy
    · rw [if_neg hc] at h
      exact ih labels hlen (fun x y hm => hbnd x y (List.mem_cons_of_mem _ hm))
        (fun x y hm => hrel x y (List.mem_cons_of_mem _ hm)) inv a b ha hb h

theorem rel_implies_processPairs_eq (close : ℕ → ℕ → Bool) (n : ℕ)
    (prs : List (ℕ × ℕ)) (labels : List ℕ) (hlen : labels.length = n) :
    ∀ {a b : ℕ}, MergedRel (pairRel close n prs) a b →
      (processPairs close labels prs).getD a 0 = (processPairs close labels prs).getD b 0 := by
  intro a b hm
  induction hm with
  | rel hr =>
    obtain ⟨hmem, hc, hx, hy⟩ := hr
    exact processPairs_pair_merged close prs labels _ _ (hlen ▸ hx) (hlen ▸ hy) hmem hc
  | refl i => rfl
  | symm _ ih => exact ih.symm
  | trans _ _ ih1 ih2 => exact ih1.trans ih2

/-- Characterization of the merge: two in-bounds endpoint indices get the
same representative exactly when they are related by the equivalence
closure of the accepted pair relation. -/
theorem sameNodeWith_iff_mergedRel (close : ℕ → ℕ → Bool) (n : ℕ) (prs : List (ℕ × ℕ))
    (hbnd : ∀ i j, (i, j) ∈ prs → i < n ∧ j < n) (a b : ℕ) (ha : a < n) (hb : b < n) :
    sameNodeWith close n prs a b = true ↔ MergedRel (pairRel close n prs) a b := by
  unfold sameNodeWith mergeLabelsWith
  rw [beq_iff_eq]
  constructor
  · intro h
    refine processPairs_eq_implies_rel close (pairRel close n prs) n prs (List.range n)
      (List.length_range n) hbnd ?_ ?_ a b ha hb h
    · intro i j hm hc
      obtain ⟨hi, hj⟩ := hbnd i j hm
      exact ⟨hm, hc, hi, hj⟩
    · intro x y hx hy hxy
      rw [getD_range n x hx, getD_range n y hy] at hxy
      exact hxy ▸ MergedRel.refl x
  · intro h
    exact rel_implies_processPairs_eq close n prs (List.range n) (List.length_range n) h

/-- C3: the node partition of the built graph is the quotient of all
segment endpoints under the merge_tolerance relation computed transitively
by union-find: endpoints within tolerance of a common endpoint share a
node, and the resulting partition does not depend on the order in which
the candidate endpoint pairs are processed. -/
theorem node_merge_transitive_order_independent (d : Metric) (tol : ℚ) (pts : List Point) :
    (∀ i j k, i < pts.length → j < pts.length → k < pts.length →
        tolClose d tol pts i j = true → tolClose d tol pts j k = true →
        sameNode d tol pts i k = true)
    ∧ (∀ prs, (∀ pr : ℕ × ℕ, pr ∈ prs ↔ pr ∈ allPairs pts.length) →
        ∀ i j, i < pts.length → j < pts.length →
          sameNodeWith (tolClose d tol pts) pts.length prs i j = sameNode d tol pts i j) := by
  have hbndAll : ∀ i j, (i, j) ∈ allPairs pts.length → i < pts.length ∧ j < pts.length := by
    intro i j hm
    exact (mem_allPairs pts.length i j).mp hm
  constructor
  · intro i j k hi hj hk hij hjk
    unfold sameNode
    rw [sameNodeWith_iff_mergedRel (tolClose d tol pts) pts.length (allPairs pts.length)
      hbndAll i k hi hk]
    have h1 : MergedRel (pairRel (tolClose d tol pts) pts.length (allPairs pts.length)) i j :=
      MergedRel.rel ⟨(mem_allPairs pts.length i j).mpr ⟨hi, hj⟩, hij, hi, hj⟩
    have h2 : MergedRel (pairRel (tolClose d tol pts) pts.length (allPairs pts.length)) j k :=
      MergedRel.rel ⟨(mem_allPairs pts.length j k).mpr ⟨hj, hk⟩, hjk, hj, hk⟩
    exact MergedRel.trans h1 h2
  · intro prs hmem i j hi hj
    have hbnd : ∀ a b, (a, b) ∈ prs → a < pts.length ∧ b < pts.length := by
      intro a b hm
      exact hbndAll a b ((hmem (a, b)).mp hm)
    apply bool_eq_of_iff
    rw [sameNodeWith_iff_mergedRel (tolClose d tol pts) pts.length prs hbnd i j hi hj]
    unfold sameNode
    rw [sameNodeWith_iff_mergedRel (tolClose d tol pts) pts.length (allPairs pts.length)
      hbndAll i j hi hj]
    constructor
    · refine mergedRel_mono ?_
      intro x y ⟨hm, hc, hx, hy⟩
      exact ⟨(hmem (x, y)).mp hm, hc, hx, hy⟩
    · refine mergedRel_mono ?_
      intro x y ⟨hm, hc, hx, hy⟩
      exact ⟨(hmem (x, y)).mpr hm, hc, hx, hy⟩

/-- The representative map of all endpoints: union-find over every
candidate pair. -/
def mergeLabels (d : Metric) (tol : ℚ) (pts : List Point) : List ℕ :=
  mergeLabelsWith (tolClose d tol pts) pts.length (allPairs pts.length)

/-- An edge of the built graph: id and weight from the source row, src
and dst the merged node ids of the two segment endpoints. -/
structure Edge where
  id : ℤ
  src : ℕ
  dst : ℕ
  weight : ℚ
deriving DecidableEq, Repr

/-- The two endpoints (first and last polyline vertex) of every row, in
row order: endpoint indices 2i and 2i+1 belong to row i. -/
def endpointList (rows : List OsmRow) : List Point :=
  (rows.map (fun r => [r.WKT.headD (0, 0), r.WKT.getLastD (0, 0)])).flatten

/-- The graph the db.create_graph call builds: one edge per row of
pretty_trip.osm_small, EDGE_ID = osm_id, endpoints merged within
merge_tolerance, weight = WEIGHTS_VALUESPECIFIED; directed_graph is false,
so no orientation is recorded on the edge. -/
def buildEdges (d : Metric) (tol : ℚ) (rows : List OsmRow) : List Edge :=
  (List.range rows.length).map (fun i =>
    { id := (rows.getD i default).osm_id,
      src := (mergeLabels d tol (endpointList rows)).getD (2 * i) 0,
      dst := (mergeLabels d tol (endpointList rows)).getD (2 * i + 1) 0,
      weight := WEIGHTS_VALUESPECIFIED d (rows.getD i default).WKT (rows.getD i default).light })

/-- A traversal of one edge: the Bool is the direction (true = src to
dst). With directed_graph = false both directions are usable. -/
abbrev Dart : Type := Edge × Bool

/-- The node a dart leaves. -/
def dartSrc (td : Dart) : ℕ := if td.2 then td.1.src else td.1.dst

/-- The node a dart enters. -/
def dartDst (td : Dart) : ℕ := if td.2 then td.1.dst else td.1.src

/-- A walk in the undirected graph: consecutive darts over edges of E,
starting at s and ending at t. -/
def isWalk (E : List Edge) : ℕ → ℕ → List Dart → Bool
  | s, t, [] => s == t
  | s, t, td :: rest =>
      decide (td.1 ∈ E) && (dartSrc td == s) && isWalk E (dartDst td) t rest

/-- The total weight of a walk. -/
def pathWeight (ds : List Dart) : ℚ := (ds.map (fun td => td.1.weight)).sum

/-- The edge ids of a walk, in traversal order. -/
def pathIds (ds : List Dart) : List ℤ := ds.map (fun td => td.1.id)

/-- The node a walk ends at. -/
def endAt (s : ℕ) : List Dart → ℕ
  | [] => s
  | td :: rest => endAt (dartDst td) rest

/-- The node sequence of a walk: s followed by every dart's entered node. -/
def nodeSeq (s : ℕ) (ds : List Dart) : List ℕ := s :: ds.map dartDst

/-- Every node mentioned by the edge list. -/
def nodesOf (E : List Edge) : List ℕ := E.map (fun e => e.src) ++ E.map (fun e => e.dst)

/-- All darts leaving node s. -/
def dartsFrom (E : List Edge) (s : ℕ) : List Dart :=
  ((E.map (fun e => (e, true))) ++ (E.map (fun e => (e, false)))).filter
    (fun td => dartSrc td == s)

/-- Modelled from the spec: exhaustive enumeration of the simple paths
from s to t that avoid the visited nodes, bounded by fuel (the
SHORTEST_PATH solver is engine-internal; a Dijkstra-class solver explores
exactly these candidate simple paths). -/
def pathsFrom (E : List Edge) : ℕ → ℕ → ℕ → List ℕ → List (List Dart)
  | 0, s, t, _ => if s == t then [[]] else []
  | fuel + 1, s, t, visited =>
      if s == t then [[]]
      else
        (((dartsFrom E s).filter (fun td => !(decide (dartDst td ∈ visited)))).map
          (fun td => (pathsFrom E fuel (dartDst td) t (dartDst td :: visited)).map
            (fun ds => td :: ds))).flatten

/-- Lexicographic at-most on edge-id lists: the tie-break order. -/
def idsLex : List ℤ → List ℤ → Bool
  | [], _ => true
  | _ :: _, [] => false
  | a :: as, b :: bs => if a < b then true else if a = b then idsLex as bs else false

/-- Modelled from the spec: the solver prefers lower weight, then ties
break toward the lexicographically lower edge-id sequence. -/
def leKey (p q : List Dart) : Prop :=
  pathWeight p < pathWeight q ∨
    (pathWeight p = pathWeight q ∧ idsLex (pathIds p) (pathIds q) = true)

instance (p q : List Dart) : Decidable (leKey p q) := by
  unfold leKey
  infer_instance

/-- The better of two candidate paths. -/
def chooseBetter (p q : List Dart) : List Dart := if leKey p q then p else q

/-- The two failure outcomes of db.solve_graph. -/
inductive SolveErr : Type where
  | NoNodeInRangeError : SolveErr
  | NoPathError : SolveErr
deriving DecidableEq, Repr

/-- Modelled from the spec: single-pair SHORTEST_PATH between two graph
nodes — the best candidate simple path, or NoPathError when the nodes are
not connected. -/
def solveNodes (E : List Edge) (s t : ℕ) : Except SolveErr (List Dart) :=
  match pathsFrom E (2 * E.length + 1) s t [s] with
  | [] => Except.error SolveErr.NoPathError
  | h :: rest => Except.ok (rest.foldl chooseBetter h)

/-- Modelled from the spec: the nearest node to a query coordinate (ties
toward the earlier node). -/
def nearest (d : Metric) (c : Point) : List Point → Option Point
  | [] => none
  | n :: rest =>
      match nearest d c rest with
      | none => some n
      | some m => if d c m < d c n then some m else some n

/-- Modelled from the spec: snapping of a query coordinate onto the
nearest graph node within max_solution_radius (0 = unbounded), as
db.solve_graph does for its source and destination points; fails with
NoNodeInRangeError when no node is in range. -/
def snap (d : Metric) (radius : ℚ) (nodes : List Point) (c : Point) : Except SolveErr Point :=
  match nearest d c nodes with
  | none => Except.error SolveErr.NoNodeInRangeError
  | some m =>
      if radius = 0 ∨ d c m ≤ radius then Except.ok m
      else Except.error SolveErr.NoNodeInRangeError

theorem mem_dartsFrom (E : List Edge) (s : ℕ) (td : Dart) :
    td ∈ dartsFrom E s ↔ td.1 ∈ E ∧ dartSrc td = s := by
  unfold dartsFrom
  rw [List.mem_filter]
  simp only [List.mem_append, List.mem_map, beq_iff_eq]
  constructor
  · rintro ⟨hmem, hsrc⟩
    refine ⟨?_, hsrc⟩
    rcases hmem with ⟨e, he, rfl⟩ | ⟨e, he, rfl⟩ <;> exact he
  · rintro ⟨he, hsrc⟩
    obtain ⟨e, b⟩ := td
    refine ⟨?_, hsrc⟩
    cases b
    · exact Or.inr ⟨e, he, rfl⟩
    · exact Or.inl ⟨e, he, rfl⟩

theorem isWalk_nil_iff (E : List Edge) (s t : ℕ) : isWalk E s t [] = true ↔ s = t := by
  simp [isWalk]

theorem isWalk_cons_iff (E : List Edge) (s t : ℕ) (td : Dart) (rest : List Dart) :
    isWalk E s t (td :: rest) = true ↔
      td.1 ∈ E ∧ dartSrc td = s ∧ isWalk E (dartDst td) t rest = true := by
  simp [isWalk, and_assoc]

theorem walk_darts_mem (E : List Edge) :
    ∀ ds s t, isWalk E s t ds = true → ∀ td ∈ ds, td.1 ∈ E := by
  intro ds
  induction ds with
  | nil => intro s t _ td htd; cases htd
  | cons hd rest ih =>
    intro s t hw td htd
    obtain ⟨hmem, _, hrest⟩ := (isWalk_cons_iff E s t hd rest).mp hw
    rcases List.mem_cons.mp htd with rfl | htl
    · exact hmem
    · exact ih (dartDst hd) t hrest td htl

theorem walk_end_mem (E : List Edge) :
    ∀ ds s t, isWalk E s t ds = true → t = s ∨ t ∈ nodesOf E := by
  intro ds
  induction ds with
  | nil => intro s t hw; exact Or.inl ((isWalk_nil_iff E s t).mp hw).symm
  | cons hd rest ih =>
    intro s t hw
    obtain ⟨hmem, _, hrest⟩ := (isWalk_cons_iff E s t hd rest).mp hw
    rcases ih (dartDst hd) t hrest with rfl | hin
    · right
      unfold nodesOf dartDst
      rcases hd with ⟨e, b⟩
      cases b
      · exact List.mem_append.mpr (Or.inl (List.mem_map.mpr ⟨e, hmem, rfl⟩))
      · exact List.mem_append.mpr (Or.inr (List.mem_map.mpr ⟨e, hmem, rfl⟩))
    · exact Or.inr hin

theorem walk_weight_nonneg (E : List Edge) (hnn : ∀ e ∈ E, 0 ≤ e.weight) :
    ∀ ds s t, isWalk E s t ds = true → 0 ≤ pathWeight ds := by
  intro ds
  induction ds with
  | nil => intro s t _; simp [pathWeight]
  | cons hd rest ih =>
    intro s t hw
    obtain ⟨hmem, _, hrest⟩ := (isWalk_cons_iff E s t hd rest).mp hw
    have h1 : 0 ≤ hd.1.weight := hnn hd.1 hmem
    have h2 : 0 ≤ pathWeight rest := ih (dartDst hd) t hrest
    unfold pathWeight at h2 ⊢
    simp only [List.map_cons, List.sum_cons]
    linarith

theorem pathWeight_append (ds1 ds2 : List Dart) :
    pathWeight (ds1 ++ ds2) = pathWeight ds1 + pathWeight ds2 := by
  unfold pathWeight
  rw [List.map_append, List.sum_append]

theorem walk_append_iff (E : List Edge) :
    ∀ ds1 ds2 s t, isWalk E s t (ds1 ++ ds2) = true ↔
      (isWalk E s (endAt s ds1) ds1 = true ∧ isWalk E (endAt s ds1) t ds2 = true) := by
  intro ds1
  induction ds1 with
  | nil =>
    intro ds2 s t
    simp [endAt, isWalk_nil_iff]
  | cons hd rest ih =>
    intro ds2 s t
    simp only [List.cons_append, isWalk_cons_iff, endAt, ih ds2 (dartDst hd) t, and_assoc]

theorem length_nodeSeq (s : ℕ) (ds : List Dart) : (nodeSeq s ds).length = ds.length + 1 := by
  simp [nodeSeq]

theorem nodeSeq_cons (s : ℕ) (td : Dart) (rest : List Dart) :
    nodeSeq s (td :: rest) = s :: nodeSeq (dartDst td) rest := rfl

theorem nodeSeq_get :
    ∀ (ds : List Dart) (s k : ℕ) (hk : k < (nodeSeq s ds).length),
      (nodeSeq s ds).get ⟨k, hk⟩ = endAt s (ds.take k) := by
  intro ds
  induction ds with
  | nil =>
    intro s k hk
    simp only [nodeSeq, List.map_nil, List.length_singleton] at hk
    match k, hk with
    | 0, _ => rfl
  | cons td rest ih =>
    intro s k hk
    match k with
    | 0 => rfl
    | k + 1 =>
      have hk2 : k < (nodeSeq (dartDst td) rest).length := by
        rw [length_nodeSeq] at hk ⊢
        simpa using hk
      have : (nodeSeq s (td :: rest)).get ⟨k + 1, hk⟩ =
          (nodeSeq (dartDst td) rest).get ⟨k, hk2⟩ := rfl
      rw [this, ih (dartDst td) k hk2]
      rfl

theorem walk_to_simple (E : List Edge) (hnn : ∀ e ∈ E, 0 ≤ e.weight) (t : ℕ) :
    ∀ (n : ℕ) (s : ℕ) (ds : List Dart), ds.length ≤ n → isWalk E s t ds = true →
      ∃ ds2, isWalk E s t ds2 = true ∧ (nodeSeq s ds2).Nodup ∧
        pathWeight ds2 ≤ pathWeight ds ∧ ds2.length ≤ ds.length := by
  intro n
  induction n with
  | zero =>
    intro s ds hlen hw
    have hds : ds = [] := List.length_eq_zero.mp (Nat.le_zero.mp hlen)
    subst hds
    exact ⟨[], hw, by simp [nodeSeq], le_refl _, le_refl _⟩
  | succ m ih =>
    intro s ds hlen hw
    by_cases hnd : (nodeSeq s ds).Nodup
    · exact ⟨ds, hw, hnd, le_refl _, le_refl _⟩
    · rw [List.nodup_iff_injective_get] at hnd
      obtain ⟨a, b, hab, hne⟩ := Function.not_injective_iff.mp hnd
      have hlt : ∀ (i j : Fin (nodeSeq s ds).length), i.val < j.val →
          (nodeSeq s ds).get i = (nodeSeq s ds).get j →
          ∃ ds2, isWalk E s t ds2 = true ∧ pathWeight ds2 ≤ pathWeight ds ∧
            ds2.length < ds.length := by
        intro i j hij hgetij
        have hjle : j.val ≤ ds.length := by
          have h1 := j.isLt
          have h2 : (nodeSeq s ds).length = ds.length + 1 := length_nodeSeq s ds
          omega
        have hile : i.val ≤ ds.length := le_trans (le_of_lt hij) hjle
        have hui : (nodeSeq s ds).get i = endAt s (ds.take i.val) := nodeSeq_get ds s i.val i.isLt
        have huj : (nodeSeq s ds).get j = endAt s (ds.take j.val) := nodeSeq_get ds s j.val j.isLt
        have hdecompj : ds.take j.val ++ ds.drop j.val = ds := List.take_append_drop _ _
        have hw1 : isWalk E s (endAt s (ds.take j.val)) (ds.take j.val) = true ∧
            isWalk E (endAt s (ds.take j.val)) t (ds.drop j.val) = true := by
          rw [← walk_append_iff]
          rw [hdecompj]
          exact hw
        have hdecompi : (ds.take j.val).take i.val ++ (ds.take j.val).drop i.val =
            ds.take j.val := List.take_append_drop _ _
        have htt : (ds.take j.val).take i.val = ds.take i.val := by
          rw [List.take_take]
          congr 1
          omega
        have hw2 : isWalk E s (endAt s (ds.take i.val)) (ds.take i.val) = true ∧
            isWalk E (endAt s (ds.take i.val)) (endAt s (ds.take j.val))
              ((ds.take j.val).drop i.val) = true := by
          have h3 := hw1.1
          rw [← hdecompj] at hw
          have h4 : isWalk E s (endAt s ((ds.take j.val).take i.val))
                ((ds.take j.val).take i.val) = true ∧
              isWalk E (endAt s ((ds.take j.val).take i.val)) (endAt s (ds.take j.val))
                ((ds.take j.val).drop i.val) = true := by
            rw [← walk_append_iff]
            rw [hdecompi]
            exact h3
          rw [htt] at h4
          exact h4
        have hu : endAt s (ds.take i.val) = endAt s (ds.take j.val) := by
          rw [← hui, ← huj, hgetij]
        refine ⟨ds.take i.val ++ ds.drop j.val, ?_, ?_, ?_⟩
        · rw [walk_append_iff]
          refine ⟨hw2.1, ?_⟩
          rw [hu]
          exact hw1.2
        · have hwmid : 0 ≤ pathWeight ((ds.take j.val).drop i.val) :=
            walk_weight_nonneg E hnn _ _ _ hw2.2
          have heq : pathWeight ds =
              pathWeight (ds.take i.val) + pathWeight ((ds.take j.val).drop i.val) +
                pathWeight (ds.drop j.val) := by
            conv_lhs => rw [← hdecompj, ← hdecompi, htt]
            rw [pathWeight_append, pathWeight_append]
          rw [pathWeight_append]
          linarith
        · rw [List.length_append, List.length_take, List.length_drop]
          omega
      rcases lt_or_gt_of_ne hne with h | h
      · obtain ⟨ds2, hw2, hwt2, hlen2⟩ := hlt a b h hab
        obtain ⟨ds3, hw3, hnd3, hwt3, hlen3⟩ := ih s ds2 (by omega) hw2
        exact ⟨ds3, hw3, hnd3, le_trans hwt3 hwt2, by omega⟩
      · obtain ⟨ds2, hw2, hwt2, hlen2⟩ := hlt b a h hab.symm
        obtain ⟨ds3, hw3, hnd3, hwt3, hlen3⟩ := ih s ds2 (by omega) hw2
        exact ⟨ds3, hw3, hnd3, le_trans hwt3 hwt2, by omega⟩

theorem walk_endAt (E : List Edge) :
    ∀ ds s t, isWalk E s t ds = true → endAt s ds = t := by
  intro ds
  induction ds with
  | nil => intro s t hw; exact (isWalk_nil_iff E s t).mp hw
  | cons td rest ih =>
    intro s t hw
    obtain ⟨_, _, hrest⟩ := (isWalk_cons_iff E s t td rest).mp hw
    exact ih (dartDst td) t hrest

theorem endAt_mem_map_dartDst :
    ∀ (ds : List Dart) (s : ℕ), ds ≠ [] → endAt s ds ∈ ds.map dartDst := by
  intro ds
  induction ds with
  | nil => intro s h; exact absurd rfl h
  | cons td rest ih =>
    intro s _
    cases rest with
    | nil => simp [endAt]
    | cons td2 rest2 =>
      have h2 : endAt (dartDst td) (td2 :: rest2) ∈ (td2 :: rest2).map dartDst :=
        ih (dartDst td) (by simp)
      show endAt (dartDst td) (td2 :: rest2) ∈ (td :: td2 :: rest2).map dartDst
      simp only [List.map_cons, List.mem_cons] at h2 ⊢
      tauto

theorem pathsFrom_sound (E : List Edge) (t : ℕ) :
    ∀ fuel s visited ds, ds ∈ pathsFrom E fuel s t visited → isWalk E s t ds = true := by
  intro fuel
  induction fuel with
  | zero =>
    intro s visited ds hmem
    unfold pathsFrom at hmem
    by_cases h : s = t
    · rw [if_pos (by simpa using h)] at hmem
      rw [List.mem_singleton.mp hmem]
      simpa [isWalk_nil_iff]
    · rw [if_neg (by simpa using h)] at hmem
      cases hmem
  | succ f ih =>
    intro s visited ds hmem
    unfold pathsFrom at hmem
    by_cases h : s = t
    · rw [if_pos (by simpa using h)] at hmem
      rw [List.mem_singleton.mp hmem]
      simpa [isWalk_nil_iff]
    · rw [if_neg (by simpa using h)] at hmem
      obtain ⟨l, hl, hdsl⟩ := List.mem_flatten.mp hmem
      obtain ⟨td, htd, rfl⟩ := List.mem_map.mp hl
      obtain ⟨ds0, hds0, rfl⟩ := List.mem_map.mp hdsl
      obtain ⟨hdarts, _⟩ := List.mem_filter.mp htd
      obtain ⟨hE, hsrc⟩ := (mem_dartsFrom E s td).mp hdarts
      exact (isWalk_cons_iff E s t td ds0).mpr ⟨hE, hsrc, ih (dartDst td) _ ds0 hds0⟩

theorem pathsFrom_complete (E : List Edge) (t : ℕ) :
    ∀ ds fuel s visited, isWalk E s t ds = true → (nodeSeq s ds).Nodup →
      ds.length ≤ fuel → (∀ v ∈ visited, v ∉ ds.map dartDst) →
      ds ∈ pathsFrom E fuel s t visited := by
  intro ds
  induction ds with
  | nil =>
    intro fuel s visited hw _ _ _
    have hst : s = t := (isWalk_nil_iff E s t).mp hw
    cases fuel <;> simp [pathsFrom, hst]
  | cons td rest ih =>
    intro fuel s visited hw hnd hlen hvis
    obtain ⟨hE, hsrc, hrest⟩ := (isWalk_cons_iff E s t td rest).mp hw
    have hst : s ≠ t := by
      intro hst
      have hend : endAt s (td :: rest) = t := walk_endAt E (td :: rest) s t hw
      have hmem : s ∈ (td :: rest).map dartDst := by
        rw [hst, ← hend]
        exact endAt_mem_map_dartDst (td :: rest) s (by simp)
      have hnotin : s ∉ (td :: rest).map dartDst := by
        have := hnd
        rw [nodeSeq] at this
        exact (List.nodup_cons.mp this).1
      exact hnotin hmem
    match fuel with
    | 0 => simp at hlen
    | f + 1 =>
      unfold pathsFrom
      rw [if_neg (by simpa using hst)]
      have hdd_notin_rest : dartDst td ∉ rest.map dartDst := by
        have h2 := hnd
        rw [nodeSeq_cons] at h2
        have h3 : (nodeSeq (dartDst td) rest).Nodup := (List.nodup_cons.mp h2).2
        rw [nodeSeq] at h3
        exact (List.nodup_cons.mp h3).1
      have hdd_notin_vis : dartDst td ∉ visited := by
        intro hin
        exact hvis (dartDst td) hin (by simp)
      refine List.mem_flatten.mpr
        ⟨(pathsFrom E f (dartDst td) t (dartDst td :: visited)).map (fun ds0 => td :: ds0),
          List.mem_map.mpr ⟨td, ?_, rfl⟩, List.mem_map.mpr ⟨rest, ?_, rfl⟩⟩
      · rw [List.mem_filter]
        refine ⟨(mem_dartsFrom E s td).mpr ⟨hE, hsrc⟩, ?_⟩
        simpa using hdd_notin_vis
      · refine ih f (dartDst td) (dartDst td :: visited) hrest ?_ (by simpa using hlen) ?_
        · rw [nodeSeq_cons] at hnd
          exact (List.nodup_cons.mp hnd).2
        · intro v hv
          rcases List.mem_cons.mp hv with rfl | hv2
          · exact hdd_notin_rest
          · intro hmem
            exact hvis v hv2 (List.mem_cons_of_mem _ hmem)

theorem simple_walk_length_le (E : List Edge) (s t : ℕ) (ds : List Dart)
    (hw : isWalk E s t ds = true) (hnd : (nodeSeq s ds).Nodup) :
    ds.length ≤ 2 * E.length := by
  have hnd2 : (ds.map dartDst).Nodup := by
    rw [nodeSeq] at hnd
    exact (List.nodup_cons.mp hnd).2
  have hsub : (ds.map dartDst) ⊆ nodesOf E := by
    intro x hx
    obtain ⟨td, htd, rfl⟩ := List.mem_map.mp hx
    have hE : td.1 ∈ E := walk_darts_mem E ds s t hw td htd
    unfold nodesOf dartDst
    rcases td with ⟨e, b⟩
    cases b
    · exact List.mem_append.mpr (Or.inl (List.mem_map.mpr ⟨e, hE, rfl⟩))
    · exact List.mem_append.mpr (Or.inr (List.mem_map.mpr ⟨e, hE, rfl⟩))
  have hle : (ds.map dartDst).length ≤ (nodesOf E).length :=
    (List.subperm_of_subset hnd2 hsub).length_le
  rw [List.length_map] at hle
  have : (nodesOf E).length = 2 * E.length := by
    unfold nodesOf
    rw [List.length_append, List.length_map, List.length_map]
    omega
  omega

theorem idsLex_refl : ∀ l : List ℤ, idsLex l l = true := by
  intro l
  induction l with
  | nil => rfl
  | cons a as ih => simp [idsLex, ih]

theorem idsLex_total : ∀ a b : List ℤ, idsLex a b = true ∨ idsLex b a = true := by
  intro a
  induction a with
  | nil => intro b; left; rfl
  | cons x as ih =>
    intro b
    cases b with
    | nil => right; rfl
    | cons y bs =>
      simp only [idsLex]
      rcases lt_trichotomy x y with h | h | h
      · left; rw [if_pos h]
      · subst h
        rcases ih bs with h2 | h2
        · left; rw [if_neg (lt_irrefl x), if_pos rfl]; exact h2
        · right; rw [if_neg (lt_irrefl x), if_pos rfl]; exact h2
      · right; rw [if_pos h]

theorem idsLex_trans : ∀ a b c : List ℤ,
    idsLex a b = true → idsLex b c = true → idsLex a c = true := by
  intro a
  induction a with
  | nil => intro b c _ _; rfl
  | cons x as ih =>
    intro b c hab hbc
    cases b with
    | nil => simp [idsLex] at hab
    | cons y bs =>
      cases c with
      | nil => simp [idsLex] at hbc
      | cons z cs =>
        simp only [idsLex] at hab hbc ⊢
        split_ifs at hab hbc ⊢ with h1 h2 h3 h4 h5 h6 <;>
          first
          | rfl
          | omega
          | (exact ih bs cs hab hbc)

theorem leKey_refl (p : List Dart) : leKey p p := Or.inr ⟨rfl, idsLex_refl _⟩

theorem leKey_weight_le {p q : List Dart} (h : leKey p q) : pathWeight p ≤ pathWeight q := by
  rcases h with h | ⟨h, _⟩
  · exact le_of_lt h
  · exact le_of_eq h

theorem leKey_trans {p q r : List Dart} (h1 : leKey p q) (h2 : leKey q r) : leKey p r := by
  rcases h1 with h1 | ⟨h1, h1x⟩ <;> rcases h2 with h2 | ⟨h2, h2x⟩
  · exact Or.inl (lt_trans h1 h2)
  · exact Or.inl (h2 ▸ h1)
  · exact Or.inl (h1 ▸ h2)
  · exact Or.inr ⟨h1.trans h2, idsLex_trans _ _ _ h1x h2x⟩

theorem leKey_total (p q : List Dart) : leKey p q ∨ leKey q p := by
  rcases lt_trichotomy (pathWeight p) (pathWeight q) with h | h | h
  · exact Or.inl (Or.inl h)
  · rcases idsLex_total (pathIds p) (pathIds q) with h2 | h2
    · exact Or.inl (Or.inr ⟨h, h2⟩)
    · exact Or.inr (Or.inr ⟨h.symm, h2⟩)
  · exact Or.inr (Or.inl h)

theorem chooseBetter_eq_or (p q : List Dart) : chooseBetter p q = p ∨ chooseBetter p q = q := by
  unfold chooseBetter
  split <;> simp

theorem chooseBetter_le_left (p q : List Dart) : leKey (chooseBetter p q) p := by
  unfold chooseBetter
  split
  · exact leKey_refl p
  · rename_i h
    rcases leKey_total p q with h2 | h2
    · exact absurd h2 h
    · exact h2

theorem chooseBetter_le_right (p q : List Dart) : leKey (chooseBetter p q) q := by
  unfold chooseBetter
  split
  · assumption
  · exact leKey_refl q

theorem foldl_chooseBetter_le :
    ∀ (l : List (List Dart)) (acc : List Dart),
      leKey (l.foldl chooseBetter acc) acc ∧ ∀ x ∈ l, leKey (l.foldl chooseBetter acc) x := by
  intro l
  induction l with
  | nil => intro acc; exact ⟨leKey_refl acc, fun x hx => absurd hx (List.not_mem_nil x)⟩
  | cons h tl ih =>
    intro acc
    obtain ⟨ih1, ih2⟩ := ih (chooseBetter acc h)
    refine ⟨leKey_trans ih1 (chooseBetter_le_left acc h), ?_⟩
    intro x hx
    rcases List.mem_cons.mp hx with rfl | hx2
    · exact leKey_trans ih1 (chooseBetter_le_right acc x)
    · exact ih2 x hx2

theorem foldl_chooseBetter_mem :
    ∀ (l : List (List Dart)) (acc : List Dart), l.foldl chooseBetter acc ∈ acc :: l := by
  intro l
  induction l with
  | nil => intro acc; simp
  | cons h tl ih =>
    intro acc
    have h2 := ih (chooseBetter acc h)
    rcases List.mem_cons.mp h2 with heq | hmem
    · rcases chooseBetter_eq_or acc h with h3 | h3
      · rw [List.foldl_cons, heq, h3]; simp
      · rw [List.foldl_cons, heq, h3]; simp
    · rw [List.foldl_cons]
      exact List.mem_cons_of_mem _ (List.mem_cons_of_mem _ hmem)

/-- C2: for connected source and destination nodes and strictly
non-negative edge weights, the solver returns a path of minimum total
weight over all walks of the graph, breaking weight ties toward the
lexicographically lowest edge-id sequence among the candidate simple
paths. -/
theorem solve_shortest_path (E : List Edge) (s t : ℕ)
    (hnn : ∀ e ∈ E, 0 ≤ e.weight) (ds0 : List Dart) (h0 : isWalk E s t ds0 = true) :
    ∃ p, solveNodes E s t = Except.ok p ∧ isWalk E s t p = true ∧
      (∀ ds, isWalk E s t ds = true → pathWeight p ≤ pathWeight ds) ∧
      (∀ q ∈ pathsFrom E (2 * E.length + 1) s t [s],
        pathWeight p = pathWeight q → idsLex (pathIds p) (pathIds q) = true) := by
  have hsimple : ∀ ds, isWalk E s t ds = true →
      ∃ ds2, ds2 ∈ pathsFrom E (2 * E.length + 1) s t [s] ∧
        pathWeight ds2 ≤ pathWeight ds := by
    intro ds hw
    obtain ⟨ds2, hw2, hnd2, hwt2, _⟩ := walk_to_simple E hnn t ds.length s ds (le_refl _) hw
    refine ⟨ds2, pathsFrom_complete E t ds2 (2 * E.length + 1) s [s] hw2 hnd2
      (by have := simple_walk_length_le E s t ds2 hw2 hnd2; omega) ?_, hwt2⟩
    intro v hv
    rw [List.mem_singleton.mp hv]
    rw [nodeSeq] at hnd2
    exact (List.nodup_cons.mp hnd2).1
  obtain ⟨ds1, hds1, _⟩ := hsimple ds0 h0
  cases hpaths : pathsFrom E (2 * E.length + 1) s t [s] with
  | nil => rw [hpaths] at hds1; cases hds1
  | cons h rest =>
    refine ⟨rest.foldl chooseBetter h, ?_, ?_, ?_, ?_⟩
    · unfold solveNodes
      rw [hpaths]
    · exact pathsFrom_sound E t (2 * E.length + 1) s [s] _
        (hpaths ▸ foldl_chooseBetter_mem rest h)
    · intro ds hw
      obtain ⟨ds2, hds2, hwt2⟩ := hsimple ds hw
      rw [hpaths] at hds2
      have hle : leKey (rest.foldl chooseBetter h) ds2 := by
        rcases List.mem_cons.mp hds2 with rfl | hmem
        · exact (foldl_chooseBetter_le rest ds2).1
        · exact (foldl_chooseBetter_le rest h).2 ds2 hmem
      exact le_trans (leKey_weight_le hle) hwt2
    · intro q hq hwq
      have hle : leKey (rest.foldl chooseBetter h) q := by
        rcases List.mem_cons.mp hq with rfl | hmem
        · exact (foldl_chooseBetter_le rest q).1
        · exact (foldl_chooseBetter_le rest h).2 q hmem
      rcases hle with hlt | ⟨_, hids⟩
      · exact absurd hwq (ne_of_lt hlt)
      · exact hids

/-- C5: when the snapped source and destination nodes are not connected
by any walk, the (structurally terminating) solver reports NoPathError
rather than looping, crashing or returning a path. -/
theorem disconnected_gives_NoPathError (E : List Edge) (s t : ℕ)
    (h : ∀ ds, ¬ isWalk E s t ds = true) :
    solveNodes E s t = Except.error SolveErr.NoPathError := by
  cases hpaths : pathsFrom E (2 * E.length + 1) s t [s] with
  | nil =>
    unfold solveNodes
    rw [hpaths]
  | cons p rest =>
    exfalso
    exact h p (pathsFrom_sound E t (2 * E.length + 1) s [s] p (by rw [hpaths]; simp))

/-- The reference scenario's segment S1: length 100, coverage 1, so
weight 100/(2-1) + (1-1)*20 = 100. -/
def S1 : Edge := { id := 1, src := 0, dst := 1, weight := 100 }

/-- The reference scenario's segment S2: length 100, coverage 0, so
weight 100/(2-1) + (1-0)*20 = 120. -/
def S2 : Edge := { id := 2, src := 0, dst := 1, weight := 120 }

/-- Witness for C2: in the scenario with S1 (weight 100) and S2
(weight 120) both joining node 0 to node 1, the solver picks the S1 path,
of total weight 100, and it is minimal over every walk. -/
theorem solve_shortest_path_witness :
    (∀ e ∈ [S1, S2], 0 ≤ e.weight)
    ∧ isWalk [S1, S2] 0 1 [(S1, true)] = true
    ∧ (∃ p, solveNodes [S1, S2] 0 1 = Except.ok p ∧ isWalk [S1, S2] 0 1 p = true ∧
        (∀ ds, isWalk [S1, S2] 0 1 ds = true → pathWeight p ≤ pathWeight ds) ∧
        (∀ q ∈ pathsFrom [S1, S2] (2 * [S1, S2].length + 1) 0 1 [0],
          pathWeight p = pathWeight q → idsLex (pathIds p) (pathIds q) = true))
    ∧ solveNodes [S1, S2] 0 1 = Except.ok [(S1, true)]
    ∧ pathWeight [(S1, true)] = 100
    ∧ pathWeight [(S2, true)] = 120 := by
  have hnn : ∀ e ∈ [S1, S2], 0 ≤ e.weight := by
    intro e he
    rcases List.mem_cons.mp he with rfl | he2
    · norm_num [S1]
    · rw [List.mem_singleton.mp he2]
      norm_num [S2]
  have h0 : isWalk [S1, S2] 0 1 [(S1, true)] = true := by
    simp [isWalk, dartSrc, dartDst, S1]
  refine ⟨hnn, h0, solve_shortest_path [S1, S2] 0 1 hnn [(S1, true)] h0, ?_, ?_, ?_⟩
  · norm_num [solveNodes, pathsFrom, dartsFrom, dartSrc, dartDst, S1, S2, chooseBetter,
      leKey, pathWeight, pathIds, idsLex]
  · norm_num [pathWeight, S1]
  · norm_num [pathWeight, S2]

/-- Witness for C5: a single-edge graph joining nodes 0 and 1, queried
from node 0 to the disconnected node 2, reports NoPathError. -/
theorem disconnected_gives_NoPathError_witness :
    solveNodes [S1] 0 2 = Except.error SolveErr.NoPathError :=
  disconnected_gives_NoPathError [S1] 0 2 (fun ds hw => by
    rcases walk_end_mem [S1] ds 0 2 hw with h | h
    · exact absurd h (by decide)
    · revert h
      simp [nodesOf, S1])

theorem nearest_cons_isSome (d : Metric) (c n : Point) (rest : List Point) :
    ∃ m, nearest d c (n :: rest) = some m := by
  simp only [nearest]
  cases nearest d c rest with
  | none => exact ⟨n, rfl⟩
  | some m =>
    dsimp only
    by_cases h : d c m < d c n
    · exact ⟨m, if_pos h⟩
    · exact ⟨n, if_neg h⟩

theorem nearest_eq_none_iff (d : Metric) (c : Point) :
    ∀ nodes, nearest d c nodes = none ↔ nodes = [] := by
  intro nodes
  cases nodes with
  | nil => simp [nearest]
  | cons n rest =>
    obtain ⟨m, hm⟩ := nearest_cons_isSome d c n rest
    rw [hm]
    simp

theorem nearest_spec (d : Metric) (c : Point) :
    ∀ nodes m, nearest d c nodes = some m → m ∈ nodes ∧ ∀ x ∈ nodes, d c m ≤ d c x := by
  intro nodes
  induction nodes with
  | nil => intro m h; cases h
  | cons n rest ih =>
    intro m h
    simp only [nearest] at h
    cases hr : nearest d c rest with
    | none =>
      rw [hr] at h
      dsimp only at h
      have hrest : rest = [] := (nearest_eq_none_iff d c rest).mp hr
      subst hrest
      have hnm : n = m := Option.some.inj h
      subst hnm
      exact ⟨List.mem_singleton_self n, by intro x hx; rw [List.mem_singleton.mp hx]⟩
    | some m0 =>
      rw [hr] at h
      dsimp only at h
      obtain ⟨hm0, hmin⟩ := ih m0 hr
      by_cases hlt : d c m0 < d c n
      · rw [if_pos hlt] at h
        obtain rfl : m0 = m := Option.some.inj h
        refine ⟨List.mem_cons_of_mem n hm0, ?_⟩
        intro x hx
        rcases List.mem_cons.mp hx with rfl | hx2
        · exact le_of_lt hlt
        · exact hmin x hx2
      · rw [if_neg hlt] at h
        have hnm : n = m := Option.some.inj h
        subst hnm
        refine ⟨List.mem_cons_self n rest, ?_⟩
        intro x hx
        rcases List.mem_cons.mp hx with rfl | hx2
        · exact le_refl _
        · exact le_trans (le_of_not_lt hlt) (hmin x hx2)

/-- C4: with a positive max_solution_radius, snapping fails with
NoNodeInRangeError exactly when no graph node lies within the radius of
the query coordinate; when it succeeds it returns the nearest node, which
is within the radius. -/
theorem snap_within_radius (d : Metric) (radius : ℚ) (nodes : List Point) (c : Point)
    (hr : 0 < radius) :
    (snap d radius nodes c = Except.error SolveErr.NoNodeInRangeError ↔
      ∀ m ∈ nodes, radius < d c m)
    ∧ (∀ m, snap d radius nodes c = Except.ok m →
        m ∈ nodes ∧ d c m ≤ radius ∧ ∀ x ∈ nodes, d c m ≤ d c x)
    ∧ ((∃ m ∈ nodes, d c m ≤ radius) → ∃ m, snap d radius nodes c = Except.ok m) := by
  have hr0 : radius ≠ 0 := ne_of_gt hr
  cases hn : nearest d c nodes with
  | none =>
    have hnil : nodes = [] := (nearest_eq_none_iff d c nodes).mp hn
    subst hnil
    refine ⟨?_, ?_, ?_⟩
    · simp [snap, hn]
    · intro m h
      simp [snap, hn] at h
    · rintro ⟨m, hm, _⟩
      cases hm
  | some m0 =>
    obtain ⟨hm0, hmin⟩ := nearest_spec d c nodes m0 hn
    by_cases hle : d c m0 ≤ radius
    · have hok : snap d radius nodes c = Except.ok m0 := by
        unfold snap
        rw [hn]
        dsimp only
        rw [if_pos (Or.inr hle)]
      refine ⟨?_, ?_, ?_⟩
      · rw [hok]
        constructor
        · intro h; cases h
        · intro hall
          exact absurd hle (not_le.mpr (hall m0 hm0))
      · intro m h
        rw [hok] at h
        obtain rfl : m0 = m := Except.ok.inj h
        exact ⟨hm0, hle, hmin⟩
      · intro _
        exact ⟨m0, hok⟩
    · have herr : snap d radius nodes c = Except.error SolveErr.NoNodeInRangeError := by
        unfold snap
        rw [hn]
        dsimp only
        rw [if_neg (not_or.mpr ⟨hr0, hle⟩)]
      refine ⟨?_, ?_, ?_⟩
      · rw [herr]
        simp only [true_iff]
        intro m hm
        exact lt_of_lt_of_le (not_le.mp hle) (hmin m hm)
      · intro m h
        rw [herr] at h
        cases h
      · rintro ⟨m, hm, hmle⟩
        exact absurd (le_trans (hmin m hm) hmle) hle

/-- Witness for C4: one node at the origin and a query point at taxicab
distance 2: radius 1 yields NoNodeInRangeError, radius 5 snaps to the
node. -/
theorem snap_within_radius_witness :
    (0:ℚ) < 1 ∧ (0:ℚ) < 5
    ∧ snap dist1 1 [((0:ℚ), (0:ℚ))] (2, 0) = Except.error SolveErr.NoNodeInRangeError
    ∧ snap dist1 5 [((0:ℚ), (0:ℚ))] (2, 0) = Except.ok (0, 0) := by
  have hd : dist1 ((2:ℚ), (0:ℚ)) (0, 0) = 2 := by
    norm_num [dist1]
  refine ⟨by norm_num, by norm_num, ?_, ?_⟩
  · refine (snap_within_radius dist1 1 [((0:ℚ), (0:ℚ))] (2, 0) (by norm_num)).1.mpr ?_
    intro m hm
    rw [List.mem_singleton.mp hm, hd]
    norm_num
  · have hthm := snap_within_radius dist1 5 [((0:ℚ), (0:ℚ))] (2, 0) (by norm_num)
    obtain ⟨m, hok⟩ := hthm.2.2 ⟨(0, 0), List.mem_singleton_self _, by rw [hd]; norm_num⟩
    obtain ⟨hmem, _, _⟩ := hthm.2.1 m hok
    have hme : m = (0, 0) := List.mem_singleton.mp hmem
    subst hme
    exact hok

/-- Configuration of the db.create_graph call issued by the notebook. -/
structure CreateGraphConfig where
  graph_name : String
  directed_graph : Bool
  merge_tolerance : ℚ
  recreate : Bool
deriving DecidableEq, Repr

/-- The db.create_graph call of start-here.ipynb: graph dc_osm_graph with
directed_graph = False, merge_tolerance 0.00001 and recreate true. -/
def dc_osm_graph_call : CreateGraphConfig :=
  { graph_name := "dc_osm_graph", directed_graph := false,
    merge_tolerance := 1 / 100000, recreate := true }

/-- Whether a row's oneway attribute forbids reverse traversal (OSM codes
forward-only ways as yes, true, 1 or F). -/
def onewayForbidsReverse (r : OsmRow) : Bool :=
  r.oneway == "yes" || r.oneway == "true" || r.oneway == "1" || r.oneway == "F"

/-- The reverse of a traversal: the same edges backwards, each dart
flipped. -/
def reverseWalk (ds : List Dart) : List Dart := (ds.map (fun td => (td.1, !td.2))).reverse

theorem walk_reverse (E : List Edge) :
    ∀ ds s t, isWalk E s t ds = true → isWalk E t s (reverseWalk ds) = true := by
  intro ds
  induction ds with
  | nil =>
    intro s t hw
    have hst : s = t := (isWalk_nil_iff E s t).mp hw
    subst hst
    exact hw
  | cons td rest ih =>
    intro s t hw
    obtain ⟨hE, hsrc, hrest⟩ := (isWalk_cons_iff E s t td rest).mp hw
    have hrev : isWalk E t (dartDst td) (reverseWalk rest) = true := ih (dartDst td) t hrest
    have hend : endAt t (reverseWalk rest) = dartDst td := walk_endAt E (reverseWalk rest) t _ hrev
    have hstep : isWalk E (dartDst td) s [(td.1, !td.2)] = true := by
      refine (isWalk_cons_iff E (dartDst td) s (td.1, !td.2) []).mpr ⟨hE, ?_, ?_⟩
      · obtain ⟨e, b⟩ := td
        cases b <;> simp [dartSrc, dartDst]
      · rw [isWalk_nil_iff]
        obtain ⟨e, b⟩ := td
        subst hsrc
        cases b <;> simp [dartSrc, dartDst]
    have : reverseWalk (td :: rest) = reverseWalk rest ++ [(td.1, !td.2)] := by
      simp [reverseWalk]
    rw [this, walk_append_iff, hend]
    exact ⟨hrev, hstep⟩

/-- C7 counterexample: a row whose oneway attribute forbids reverse
traversal still yields a bidirectionally traversable edge, because the
builder sets directed_graph = False and never consults oneway. -/
def onewayRow : OsmRow :=
  { WKT := [((0:ℚ), (0:ℚ)), (1, 0)], osm_id := 7, code := 5122, fclass := "residential",
    name := "A St", ref := "", oneway := "yes", maxspeed := 25, layer := 0,
    bridge := "F", tunnel := "F", light := 0 }

theorem oneway_ignored_counterexample :
    onewayForbidsReverse onewayRow = true
    ∧ dc_osm_graph_call.directed_graph = false
    ∧ isWalk (buildEdges dist1 dc_osm_graph_call.merge_tolerance [onewayRow]) 1 0
        [((buildEdges dist1 dc_osm_graph_call.merge_tolerance [onewayRow]).getD 0
            { id := 0, src := 0, dst := 0, weight := 0 }, false)] = true := by
  refine ⟨by decide, by decide, ?_⟩
  norm_num [buildEdges, mergeLabels, mergeLabelsWith, processPairs, allPairs, unionLabels,
    tolClose, dist1, endpointList, onewayRow, dc_osm_graph_call, isWalk, dartSrc, dartDst,
    List.getD]

/-- C7 amended: since the builder passes directed_graph = False and its
edge specification reads only osm_id and WKT, every edge of the built
graph is traversable in both directions, whether or not the row's oneway
attribute forbids reverse traversal: every walk on the built graph can be
walked backwards. -/
theorem built_graph_undirected (d : Metric) (tol : ℚ) (rows : List OsmRow)
    (s t : ℕ) (ds : List Dart)
    (hw : isWalk (buildEdges d tol rows) s t ds = true) :
    isWalk (buildEdges d tol rows) t s (reverseWalk ds) = true :=
  walk_reverse (buildEdges d tol rows) ds s t hw

/-- Witness for the amended C7: the forward traversal of the built
oneway edge, reversed, is again a walk. -/
theorem built_graph_undirected_witness :
    isWalk (buildEdges dist1 dc_osm_graph_call.merge_tolerance [onewayRow]) 0 1
      [((buildEdges dist1 dc_osm_graph_call.merge_tolerance [onewayRow]).getD 0
          { id := 0, src := 0, dst := 0, weight := 0 }, true)] = true
    ∧ isWalk (buildEdges dist1 dc_osm_graph_call.merge_tolerance [onewayRow]) 1 0
        (reverseWalk [((buildEdges dist1 dc_osm_graph_call.merge_tolerance [onewayRow]).getD 0
          { id := 0, src := 0, dst := 0, weight := 0 }, true)]) = true := by
  have hfwd : isWalk (buildEdges dist1 dc_osm_graph_call.merge_tolerance [onewayRow]) 0 1
      [((buildEdges dist1 dc_osm_graph_call.merge_tolerance [onewayRow]).getD 0
          { id := 0, src := 0, dst := 0, weight := 0 }, true)] = true := by
    norm_num [buildEdges, mergeLabels, mergeLabelsWith, processPairs, allPairs, unionLabels,
      tolClose, dist1, endpointList, onewayRow, dc_osm_graph_call, isWalk, dartSrc, dartDst,
      List.getD]
  exact ⟨hfwd, built_graph_undirected dist1 dc_osm_graph_call.merge_tolerance [onewayRow]
    0 1 _ hfwd⟩

/-- The engine's graph catalog: graph name to stored edge list. -/
def GraphStore : Type := List (String × List Edge)

/-- The stored graph of a given name, if any. -/
def lookupGraph (store : GraphStore) (nm : String) : Option (List Edge) :=
  (store.find? (fun pr => pr.1 == nm)).map (fun pr => pr.2)

/-- Modelled from the spec: db.create_graph with recreate = "true" (the
option the notebook call passes) discards any prior graph of that name
and stores the freshly built one, never patching the prior graph. -/
def create_graph (store : GraphStore) (nm : String) (d : Metric) (tol : ℚ)
    (rows : List OsmRow) : GraphStore :=
  (nm, buildEdges d tol rows) :: store.filter (fun pr => pr.1 != nm)

/-- C8: the graph builder is deterministic and a recreate rebuild fully
replaces the prior graph: whatever was stored before, after the call the
named graph is exactly the freshly built one, two runs from any two prior
states store the same graph, and a second identical run changes nothing. -/
theorem create_graph_deterministic_recreate (nm : String) (d : Metric) (tol : ℚ)
    (rows : List OsmRow) :
    (∀ store, lookupGraph (create_graph store nm d tol rows) nm = some (buildEdges d tol rows))
    ∧ (∀ store1 store2, lookupGraph (create_graph store1 nm d tol rows) nm =
        lookupGraph (create_graph store2 nm d tol rows) nm)
    ∧ (∀ store old, lookupGraph (create_graph ((nm, old) :: store) nm d tol rows) nm =
        lookupGraph (create_graph store nm d tol rows) nm)
    ∧ (∀ store, lookupGraph
        (create_graph (create_graph store nm d tol rows) nm d tol rows) nm =
        lookupGraph (create_graph store nm d tol rows) nm) := by
  have hlook : ∀ store, lookupGraph (create_graph store nm d tol rows) nm =
      some (buildEdges d tol rows) := by
    intro store
    unfold lookupGraph create_graph
    rw [List.find?_cons_of_pos _ (by simp)]
    rfl
  exact ⟨hlook, fun s1 s2 => (hlook s1).trans (hlook s2).symm,
    fun s old => (hlook _).trans (hlook s).symm,
    fun s => (hlook _).trans (hlook s).symm⟩

/-- Agreement of two rows on the only inputs the weight expression and
edge specification read: the geometry, the edge id and the coverage. -/
def agreeOnGeometryAndLight (r1 r2 : OsmRow) : Prop :=
  r1.osm_id = r2.osm_id ∧ r1.WKT = r2.WKT ∧ r1.light = r2.light

/-- C10: edge weights and solve results depend only on each row's
geometry, id and light coverage: row lists that agree on those (but may
differ in fclass, name, oneway, maxspeed, layer, bridge, tunnel, ...)
build identical graphs and give identical solver answers. -/
theorem weights_independent_of_other_attributes (d : Metric) (tol : ℚ)
    (rows1 rows2 : List OsmRow)
    (h : List.Forall₂ agreeOnGeometryAndLight rows1 rows2) :
    buildEdges d tol rows1 = buildEdges d tol rows2
    ∧ ∀ s t, solveNodes (buildEdges d tol rows1) s t =
        solveNodes (buildEdges d tol rows2) s t := by
  have hlen : rows1.length = rows2.length := h.length_eq
  have hgetD : ∀ i, i < rows2.length →
      agreeOnGeometryAndLight (rows1.getD i default) (rows2.getD i default) := by
    intro i hi
    have h1 : i < rows1.length := by omega
    rw [List.getD_eq_getElem?_getD, List.getD_eq_getElem?_getD,
      List.getElem?_eq_getElem h1, List.getElem?_eq_getElem hi]
    have := (List.forall₂_iff_get.mp h).2 i h1 hi
    simpa using this
  have hend : endpointList rows1 = endpointList rows2 := by
    unfold endpointList
    congr 1
    clear hlen hgetD
    induction h with
    | nil => rfl
    | cons hr htail ih =>
      obtain ⟨_, hwkt, _⟩ := hr
      simp only [List.map_cons, hwkt, ih]
  have hbuild : buildEdges d tol rows1 = buildEdges d tol rows2 := by
    unfold buildEdges
    rw [hlen, hend]
    refine List.map_congr_left ?_
    intro i hi
    rw [List.mem_range] at hi
    obtain ⟨hid, hwkt, hlight⟩ := hgetD i hi
    rw [hid, hwkt, hlight]
  exact ⟨hbuild, fun s t => by rw [hbuild]⟩

/-- Witness for C10: two one-row inputs with the same geometry, id and
light but different name, fclass, oneway, maxspeed, layer, bridge and
tunnel build the same graph and solve identically. -/
theorem weights_independent_of_other_attributes_witness :
    buildEdges dist1 (1 / 100000) [onewayRow] =
      buildEdges dist1 (1 / 100000)
        [{ WKT := [((0:ℚ), (0:ℚ)), (1, 0)], osm_id := 7, code := 5123,
           fclass := "motorway", name := "B Av", ref := "r", oneway := "no",
           maxspeed := 55, layer := 1, bridge := "T", tunnel := "T", light := 0 }]
    ∧ ∀ s t, solveNodes (buildEdges dist1 (1 / 100000) [onewayRow]) s t =
        solveNodes (buildEdges dist1 (1 / 100000)
          [{ WKT := [((0:ℚ), (0:ℚ)), (1, 0)], osm_id := 7, code := 5123,
             fclass := "motorway", name := "B Av", ref := "r", oneway := "no",
             maxspeed := 55, layer := 1, bridge := "T", tunnel := "T", light := 0 }]) s t :=
  weights_independent_of_other_attributes dist1 (1 / 100000) _ _
    (List.Forall₂.cons ⟨rfl, by simp [onewayRow], rfl⟩ List.Forall₂.nil)

/-- Witness for C3: three collinear endpoints 1 apart with tolerance 1:
the outer two merge into one node only through the middle one, and the
reversed processing order gives the same answer. -/
theorem node_merge_witness :
    sameNode dist1 1 [((0:ℚ), (0:ℚ)), (1, 0), (2, 0)] 0 2 = true
    ∧ sameNodeWith (tolClose dist1 1 [((0:ℚ), (0:ℚ)), (1, 0), (2, 0)]) 3
        ((allPairs 3).reverse) 0 2 =
      sameNode dist1 1 [((0:ℚ), (0:ℚ)), (1, 0), (2, 0)] 0 2 := by
  constructor
  · exact (node_merge_transitive_order_independent dist1 1 _).1 0 1 2 (by decide) (by decide)
      (by decide) (by norm_num [tolClose, dist1, List.getD_cons_zero, List.getD_cons_succ])
      (by norm_num [tolClose, dist1, List.getD_cons_zero, List.getD_cons_succ])
  · exact (node_merge_transitive_order_independent dist1 1
        [((0:ℚ), (0:ℚ)), (1, 0), (2, 0)]).2 ((allPairs 3).reverse)
      (fun pr => ⟨fun h2 => List.mem_reverse.mp h2, fun h2 => List.mem_reverse.mpr h2⟩)
      0 2 (by decide) (by decide)

end PrettyTrip
